import Mathlib

set_option maxRecDepth 8192

/-!
Verification of the lint-extraction pipeline of `src/clippy_dev/src/lib.rs`.

Strings are modelled as `List Char` (Rust `String`/`&str`).  The pure parts of
the Rust code (text normalization, record construction, filtering, grouping,
and the two regular-expression extractors) are embedded as executable Lean
functions; the file-system boundary (`walkdir`, `fs::File`) is modelled by
passing the walker's result list and a read oracle as explicit parameters.
-/

namespace Clippy

/-! ## Text normalization (src/clippy_dev/src/lib.rs line 54 and NL_ESCAPE_RE line 35) -/

/-- Whitespace class of the regex `\s` (ASCII part: space, tab, newline,
vertical tab, form feed, carriage return).  The Rust `regex` crate's `\s`
additionally matches non-ASCII Unicode whitespace, which never occurs in the
texts this tool scans. -/
def isSpaceCh (c : Char) : Bool :=
  c == ' ' || c == '\t' || c == '\n' || c == '\x0b' || c == '\x0c' || c == '\r'

/-- Models `desc.replace("\\\"", "\"")`: `str::replace` replaces every
non-overlapping occurrence of the two-character sequence backslash-quote with
a quote, scanning left to right. -/
def unescapeQuotes : List Char → List Char
  | [] => []
  | [c] => [c]
  | c1 :: c2 :: rest =>
    if c1 = '\\' ∧ c2 = '"' then '"' :: unescapeQuotes rest
    else c1 :: unescapeQuotes (c2 :: rest)

/-- Models `NL_ESCAPE_RE.replace(s, "")` where `NL_ESCAPE_RE = \\\n\s*`:
`Regex::replace` replaces only the leftmost match, i.e. only the first
backslash-newline-(greedy whitespace) sequence is removed. -/
def removeFirstNlEscape : List Char → List Char
  | [] => []
  | [c] => [c]
  | c1 :: c2 :: rest =>
    if c1 = '\\' ∧ c2 = '\n' then List.dropWhile isSpaceCh rest
    else c1 :: removeFirstNlEscape (c2 :: rest)

/-- The full normalization applied to the `desc` argument in `Lint::new`
(line 54): `NL_ESCAPE_RE.replace(&desc.replace("\\\"", "\""), "")`. -/
def normalizeDesc (desc : List Char) : List Char :=
  removeFirstNlEscape (unescapeQuotes desc)

/-- Models `str::to_lowercase`.  On the ASCII range (which covers every name
captured by the extraction patterns, class `[A-Z_0-9]`) Rust's Unicode-aware
lowercasing agrees with per-character ASCII lowercasing. -/
def toLowercase (s : List Char) : List Char :=
  s.map Char.toLower

/-! ## The Lint record (struct Lint, lines 40-58) -/

/-- Lint data parsed from the Clippy source code (struct `Lint`). -/
structure Lint where
  name : List Char
  group : List Char
  desc : List Char
  deprecation : Option (List Char)
  module : List Char
deriving DecidableEq, Repr

/-- Models `Lint::new` (lines 50-58).  The `to_string` calls convert `&str`
to `String` and are identities in this model. -/
def Lint.new (name group desc : List Char) (deprecation : Option (List Char))
    (module : List Char) : Lint :=
  { name := toLowercase name
    group := group
    desc := normalizeDesc desc
    deprecation := deprecation
    module := module }

/-- The reserved prefix filtered out by `usable_lints`. -/
def internalKw : List Char := "internal".toList

/-- Models `Lint::usable_lints` (lines 61-63): keep the lints whose
`deprecation` is `None` and whose `group` does not start with `"internal"`. -/
def Lint.usable_lints (lints : List Lint) : List Lint :=
  lints.filter (fun l => l.deprecation.isNone && !(internalKw.isPrefixOf l.group))

/-- One step of itertools' `into_group_map`: push `v` onto the bucket of key
`k`, creating the bucket if the key is new. -/
def insertGrouped (m : List (List Char × List Lint)) (k : List Char) (v : Lint) :
    List (List Char × List Lint) :=
  match m with
  | [] => [(k, [v])]
  | (k1, vs) :: rest =>
    if k1 = k then (k1, vs ++ [v]) :: rest else (k1, vs) :: insertGrouped rest k v

/-- Models `Lint::by_lint_group` (lines 66-68): map each lint to the pair
`(group, lint)` and collect with `into_group_map`.  The Rust result is a
`HashMap` (unordered keys); it is modelled as an association list whose key
order is insertion order, which refines the unordered map. -/
def Lint.by_lint_group (lints : List Lint) : List (List Char × List Lint) :=
  lints.foldl (fun m l => insertGrouped m l.group l) []

/-! ## Helper lemmas about normalization -/

theorem charOfNat_toNat {n : Nat} (h : n < 55296) : (Char.ofNat n).toNat = n := by
  have hv : n.isValidChar := Or.inl h
  unfold Char.ofNat
  rw [dif_pos hv]
  unfold Char.ofNatAux Char.toNat
  simp [UInt32.toNat, UInt32.ofNatCore]

theorem toLower_idem (c : Char) : Char.toLower (Char.toLower c) = Char.toLower c := by
  unfold Char.toLower
  by_cases h : c.toNat ≥ 65 ∧ c.toNat ≤ 90
  · rw [if_pos h]
    have hval : (Char.ofNat (c.toNat + 32)).toNat = c.toNat + 32 :=
      charOfNat_toNat (by omega)
    rw [if_neg (by rw [hval]; omega)]
  · rw [if_neg h, if_neg h]

theorem toLowercase_idem (s : List Char) : toLowercase (toLowercase s) = toLowercase s := by
  induction s with
  | nil => rfl
  | cons c rest ih =>
    simp only [toLowercase, List.map_cons] at *
    rw [toLower_idem]
    exact congrArg _ (by simpa [toLowercase] using ih)

theorem unescapeQuotes_no_bs : ∀ (s : List Char), '\\' ∉ s → unescapeQuotes s = s
  | [], _ => rfl
  | [_], _ => rfl
  | c1 :: c2 :: rest, h => by
    have h1 : c1 ≠ '\\' := fun hc => h (hc ▸ List.mem_cons_self _ _)
    rw [unescapeQuotes, if_neg (fun hand => h1 hand.1),
      unescapeQuotes_no_bs (c2 :: rest) (fun hm => h (List.mem_cons_of_mem _ hm))]

theorem removeFirstNlEscape_no_bs :
    ∀ (s : List Char), '\\' ∉ s → removeFirstNlEscape s = s
  | [], _ => rfl
  | [_], _ => rfl
  | c1 :: c2 :: rest, h => by
    have h1 : c1 ≠ '\\' := fun hc => h (hc ▸ List.mem_cons_self _ _)
    rw [removeFirstNlEscape, if_neg (fun hand => h1 hand.1),
      removeFirstNlEscape_no_bs (c2 :: rest) (fun hm => h (List.mem_cons_of_mem _ hm))]

theorem normalizeDesc_no_bs (s : List Char) (h : '\\' ∉ s) : normalizeDesc s = s := by
  rw [normalizeDesc, unescapeQuotes_no_bs s h, removeFirstNlEscape_no_bs s h]

theorem unescapeQuotes_append_no_bs :
    ∀ (p s : List Char), '\\' ∉ p → s ≠ [] →
      unescapeQuotes (p ++ s) = p ++ unescapeQuotes s
  | [], _, _, _ => rfl
  | [c], s, hp, hs => by
    have h1 : c ≠ '\\' := fun hc => hp (hc ▸ List.mem_cons_self _ _)
    match s, hs with
    | d :: t, _ =>
      rw [List.singleton_append, unescapeQuotes, if_neg (fun hand => h1 hand.1)]
      rfl
  | c1 :: c2 :: p', s, hp, hs => by
    have h1 : c1 ≠ '\\' := fun hc => hp (hc ▸ List.mem_cons_self _ _)
    have hp' : '\\' ∉ c2 :: p' := fun hm => hp (List.mem_cons_of_mem _ hm)
    rw [List.cons_append, List.cons_append, unescapeQuotes,
      if_neg (fun hand => h1 hand.1), ← List.cons_append,
      unescapeQuotes_append_no_bs (c2 :: p') s hp' hs]
    rfl

theorem removeFirstNlEscape_first :
    ∀ (p t : List Char), '\\' ∉ p →
      removeFirstNlEscape (p ++ '\\' :: '\n' :: t) = p ++ List.dropWhile isSpaceCh t
  | [], t, _ => by
    rw [List.nil_append, removeFirstNlEscape, if_pos ⟨rfl, rfl⟩, List.nil_append]
  | [c], t, hp => by
    have h1 : c ≠ '\\' := fun hc => hp (hc ▸ List.mem_cons_self _ _)
    rw [List.singleton_append, removeFirstNlEscape, if_neg (fun hand => h1 hand.1),
      removeFirstNlEscape, if_pos ⟨rfl, rfl⟩]
    rfl
  | c1 :: c2 :: p', t, hp => by
    have h1 : c1 ≠ '\\' := fun hc => hp (hc ▸ List.mem_cons_self _ _)
    have hp' : '\\' ∉ c2 :: p' := fun hm => hp (List.mem_cons_of_mem _ hm)
    rw [List.cons_append, List.cons_append, removeFirstNlEscape,
      if_neg (fun hand => h1 hand.1), ← List.cons_append,
      removeFirstNlEscape_first (c2 :: p') t hp']
    rfl

/-! ## Helper lemmas about grouping -/

theorem lookup_cons_eq {β : Type} (k k1 : List Char) (vs : β) (rest : List (List Char × β)) :
    ((k1, vs) :: rest).lookup k = if k = k1 then some vs else rest.lookup k := by
  by_cases h : k = k1
  · simp [List.lookup_cons, beq_iff_eq, h]
  · rw [List.lookup_cons, if_neg h, show (k == k1) = false from beq_eq_false_iff_ne.mpr h]

theorem lookup_insertGrouped (m : List (List Char × List Lint)) (k k' : List Char) (v : Lint) :
    (insertGrouped m k' v).lookup k =
      if k = k' then some (((m.lookup k).getD []) ++ [v]) else m.lookup k := by
  induction m with
  | nil =>
    show ((k', [v]) :: []).lookup k = _
    rw [lookup_cons_eq]
    by_cases h : k = k' <;> simp [h, List.lookup]
  | cons kv rest ih =>
    obtain ⟨k1, vs⟩ := kv
    by_cases h1 : k1 = k'
    · subst h1
      by_cases h : k = k1 <;>
        simp [insertGrouped, lookup_cons_eq, h]
    · rw [insertGrouped, if_neg h1, lookup_cons_eq]
      by_cases h : k = k1
      · subst h
        rw [if_pos rfl, if_neg h1, lookup_cons_eq, if_pos rfl]
      · rw [if_neg h, ih, lookup_cons_eq, if_neg h]

theorem keys_insertGrouped (m : List (List Char × List Lint)) (k : List Char) (v : Lint) :
    (insertGrouped m k v).map Prod.fst =
      if k ∈ m.map Prod.fst then m.map Prod.fst else m.map Prod.fst ++ [k] := by
  induction m with
  | nil => simp [insertGrouped]
  | cons kv rest ih =>
    obtain ⟨k1, vs⟩ := kv
    by_cases h1 : k1 = k
    · subst h1
      simp [insertGrouped]
    · rw [insertGrouped, if_neg h1]
      have hne : ¬ k = k1 := fun h => h1 h.symm
      by_cases hmem : k ∈ rest.map Prod.fst
      · simp [hmem, hne, ih]
      · simp [hmem, hne, ih]

/-- The fold underlying `by_lint_group`, named so the accumulator can be
generalized in proofs. -/
def groupStep (m : List (List Char × List Lint)) (l : Lint) :
    List (List Char × List Lint) :=
  insertGrouped m l.group l

theorem by_lint_group_eq_foldl (lints : List Lint) :
    Lint.by_lint_group lints = lints.foldl groupStep [] := rfl

theorem foldl_group_lookup (lints : List Lint) (m : List (List Char × List Lint))
    (k : List Char) :
    ((lints.foldl groupStep m).lookup k).getD [] =
      ((m.lookup k).getD []) ++ lints.filter (fun l => decide (l.group = k)) := by
  induction lints generalizing m with
  | nil => simp
  | cons l ls ih =>
    rw [List.foldl_cons, ih, List.filter_cons]
    show (((insertGrouped m l.group l).lookup k).getD []) ++ _ = _
    rw [lookup_insertGrouped]
    by_cases h : k = l.group
    · rw [if_pos h, if_pos (by simp [h.symm]), h]
      simp
    · have hg : ¬ l.group = k := fun he => h he.symm
      rw [if_neg h, if_neg (by simpa using hg)]

theorem foldl_group_keys (lints : List Lint) (m : List (List Char × List Lint))
    (k : List Char) :
    k ∈ (lints.foldl groupStep m).map Prod.fst ↔
      k ∈ m.map Prod.fst ∨ k ∈ lints.map Lint.group := by
  induction lints generalizing m with
  | nil => simp
  | cons l ls ih =>
    rw [List.foldl_cons, ih]
    show k ∈ (insertGrouped m l.group l).map Prod.fst ∨ _ ↔ _
    rw [keys_insertGrouped]
    by_cases hmem : l.group ∈ m.map Prod.fst
    · rw [if_pos hmem]
      simp only [List.map_cons, List.mem_cons]
      constructor
      · rintro (h | h)
        · exact Or.inl h
        · exact Or.inr (Or.inr h)
      · rintro (h | h | h)
        · exact Or.inl h
        · exact Or.inl (h ▸ hmem)
        · exact Or.inr h
    · rw [if_neg hmem]
      simp only [List.mem_append, List.mem_singleton, List.map_cons, List.mem_cons]
      tauto

theorem foldl_group_nodup (lints : List Lint) (m : List (List Char × List Lint))
    (h : (m.map Prod.fst).Nodup) :
    ((lints.foldl groupStep m).map Prod.fst).Nodup := by
  induction lints generalizing m with
  | nil => exact h
  | cons l ls ih =>
    rw [List.foldl_cons]
    refine ih _ ?_
    show ((insertGrouped m l.group l).map Prod.fst).Nodup
    rw [keys_insertGrouped]
    by_cases hmem : l.group ∈ m.map Prod.fst
    · rw [if_pos hmem]; exact h
    · rw [if_neg hmem, List.nodup_append]
      refine ⟨h, List.nodup_singleton _, ?_⟩
      intro a ha hb
      rw [List.mem_singleton] at hb
      exact hmem (hb ▸ ha)

theorem unescapeQuotes_bs_nl (t : List Char) :
    unescapeQuotes ('\\' :: '\n' :: t) = '\\' :: '\n' :: unescapeQuotes t := by
  rw [unescapeQuotes, if_neg (by simp)]
  refine congrArg _ ?_
  cases t with
  | nil => rfl
  | cons c t' => rw [unescapeQuotes, if_neg (by simp)]

/-! ## Concrete demonstration inputs -/

/-- A raw description carrying two line continuations. -/
def contDemo : List Char := "a\\\nb\\\nc".toList

/-! ## Claims C3, C4: behaviour of the normalization -/

/-- C3 counterexample: on a description with two line continuations the code
removes only the first one; the backslash-newline artifact of the second
continuation survives normalization, contradicting the claim that every
occurrence is removed. -/
theorem normalize_keeps_second_continuation :
    normalizeDesc contDemo = ('a' :: 'b' :: '\\' :: '\n' :: 'c' :: []) ∧
    List.IsInfix ('\\' :: '\n' :: []) (normalizeDesc contDemo) := by
  constructor <;> decide

/-- C3 (amended): normalization removes only the first (leftmost)
backslash-newline-whitespace sequence of the un-escaped text; everything after
it, including any later continuation, is kept verbatim. -/
theorem normalize_removes_first_continuation (p t : List Char) (h : '\\' ∉ p) :
    normalizeDesc (p ++ '\\' :: '\n' :: t) =
      p ++ List.dropWhile isSpaceCh (unescapeQuotes t) := by
  rw [normalizeDesc, unescapeQuotes_append_no_bs p ('\\' :: '\n' :: t) h (by simp),
    unescapeQuotes_bs_nl, removeFirstNlEscape_first p _ h]

/-- Witness for `normalize_removes_first_continuation` at a concrete input. -/
theorem normalize_removes_first_continuation_witness :
    '\\' ∉ ('a' :: 'b' :: []) ∧
      normalizeDesc (('a' :: 'b' :: []) ++ '\\' :: '\n' :: (' ' :: 'c' :: 'd' :: [])) =
        ('a' :: 'b' :: []) ++
          List.dropWhile isSpaceCh (unescapeQuotes (' ' :: 'c' :: 'd' :: [])) :=
  ⟨by decide, normalize_removes_first_continuation _ _ (by decide)⟩

/-- C4 counterexample: normalization is not idempotent; a second pass over the
already-normalized two-continuation description removes the surviving second
continuation and changes the string again. -/
theorem normalize_not_idempotent :
    normalizeDesc (normalizeDesc contDemo) ≠ normalizeDesc contDemo := by
  decide

/-- C4 (amended): on inputs containing no backslash (in particular no escaped
quote and no line continuation) normalization is the identity, hence
idempotent; the counterexample shows idempotence fails once a second line
continuation is present. -/
theorem normalize_idempotent_no_backslash (s : List Char) (h : '\\' ∉ s) :
    normalizeDesc (normalizeDesc s) = normalizeDesc s := by
  rw [normalizeDesc_no_bs s h]
  exact normalizeDesc_no_bs s h

/-- Witness for `normalize_idempotent_no_backslash` at a concrete input. -/
theorem normalize_idempotent_no_backslash_witness :
    '\\' ∉ ('a' :: 'b' :: 'c' :: []) ∧
      normalizeDesc (normalizeDesc ('a' :: 'b' :: 'c' :: [])) =
        normalizeDesc ('a' :: 'b' :: 'c' :: []) :=
  ⟨by decide, normalize_idempotent_no_backslash _ (by decide)⟩

/-! ## Claim C6: the usable filter -/

/-- C6: `usable_lints` returns exactly the order-preserving subsequence of
records whose `deprecation` is absent and whose `group` does not start with
the prefix `"internal"`; it is a total function (no error path). -/
theorem usable_lints_spec (lints : List Lint) (l : Lint) :
    (l ∈ Lint.usable_lints lints ↔
      l ∈ lints ∧ l.deprecation = none ∧ ¬ List.IsPrefix internalKw l.group) ∧
    List.Sublist (Lint.usable_lints lints) lints := by
  constructor
  · rw [Lint.usable_lints, List.mem_filter]
    simp only [Bool.and_eq_true, Option.isNone_iff_eq_none, Bool.not_eq_true']
    constructor
    · rintro ⟨hmem, hdep, hpre⟩
      exact ⟨hmem, hdep, (not_congr List.isPrefixOf_iff_prefix).mp (Bool.eq_false_iff.mp hpre)⟩
    · rintro ⟨hmem, hdep, hpre⟩
      exact ⟨hmem, hdep, Bool.eq_false_iff.mpr ((not_congr List.isPrefixOf_iff_prefix).mpr hpre)⟩
  · exact List.filter_sublist lints

/-! ## Claim C7: grouping by category -/

/-- C7: `by_lint_group` produces a map whose key set is exactly the set of
group labels occurring in the input (no duplicate keys), where each key's
bucket is the ordered subsequence of input records bearing that label
(duplicates retained), and the empty input yields the empty map. -/
theorem by_lint_group_spec (lints : List Lint) (k : List Char) :
    ((Lint.by_lint_group lints).map Prod.fst).Nodup ∧
    (k ∈ (Lint.by_lint_group lints).map Prod.fst ↔ k ∈ lints.map Lint.group) ∧
    ((Lint.by_lint_group lints).lookup k).getD [] =
      lints.filter (fun l => decide (l.group = k)) ∧
    Lint.by_lint_group [] = [] := by
  refine ⟨?_, ?_, ?_, rfl⟩
  · rw [by_lint_group_eq_foldl]
    exact foldl_group_nodup lints [] (by simp)
  · rw [by_lint_group_eq_foldl, foldl_group_keys]
    simp
  · rw [by_lint_group_eq_foldl, foldl_group_lookup]
    simp [List.lookup]

/-! ## Claim C8: names are lowercased -/

/-- Inputs for the concrete part of the case-folding claim. -/
def ptrArgU : List Char := "PTR_ARG".toList

/-- Group label of the concrete case-folding example. -/
def styleG : List Char := "style".toList

/-- Module name used by the concrete examples. -/
def modDemo : List Char := "module_name".toList

/-- C8: the stored `name` of any constructed record is lowercase (lowercasing
it again changes nothing), and the captured name `PTR_ARG` is stored as
`ptr_arg`. -/
theorem lint_name_lowercase (name group desc : List Char) (dep : Option (List Char))
    (module : List Char) :
    toLowercase (Lint.new name group desc dep module).name =
      (Lint.new name group desc dep module).name ∧
    (Lint.new ptrArgU styleG ('d' :: []) none modDemo).name = "ptr_arg".toList :=
  ⟨toLowercase_idem name, by decide⟩

/-! ## Claim C10: usable filter tests presence, not content -/

/-- C10: `usable_lints` tests only presence of `deprecation`; a record whose
`deprecation` is present but equal to the empty string is excluded. -/
theorem usable_excludes_empty_reason (lints : List Lint) (l : Lint)
    (h : l.deprecation = some []) : l ∉ Lint.usable_lints lints := by
  intro hmem
  rw [Lint.usable_lints, List.mem_filter] at hmem
  have := hmem.2
  rw [h] at this
  simp at this

/-- Witness for `usable_excludes_empty_reason`: a concrete record with an
empty deprecation reason is not in the usable subset of a singleton list. -/
theorem usable_excludes_empty_reason_witness :
    (Lint.new ptrArgU styleG ('d' :: []) (some []) modDemo).deprecation = some [] ∧
      Lint.new ptrArgU styleG ('d' :: []) (some []) modDemo ∉
        Lint.usable_lints (Lint.new ptrArgU styleG ('d' :: []) (some []) modDemo :: []) :=
  ⟨rfl, usable_excludes_empty_reason _ _ rfl⟩

/-! ## The declaration extractor

Model of the two lazily-built regular expressions `DEC_CLIPPY_LINT_RE`
(lines 24-29) and `DEC_DEPRECATED_LINT_RE` (lines 30-34) and of
`captures_iter`.  Both patterns are deterministic: every sub-pattern is either
a literal, a greedy character-class repetition whose class is disjoint from
the following token, or the description body `(?:[^"\\]+|\\(?s).(?-s))*"`,
which necessarily ends at the first quote not consumed as part of a
backslash-escape pair.  Hence leftmost-first regex matching coincides with the
following maximal-munch scanner.  `captures_iter` yields non-overlapping
matches left to right, resuming after the end of each match. -/

/-- Character class `[A-Z_]` (first character of a lint name). -/
def isNameStart (c : Char) : Bool := ('A' ≤ c && c ≤ 'Z') || c == '_'

/-- Character class `[A-Z_0-9]` (continuation of a lint name). -/
def isNameCont (c : Char) : Bool := isNameStart c || ('0' ≤ c && c ≤ '9')

/-- Character class `[a-z_]` (lint category). -/
def isCatChar (c : Char) : Bool := ('a' ≤ c && c ≤ 'z') || c == '_'

/-- Literal head of the active pattern. -/
def clippyKw : List Char := "declare_clippy_lint!".toList

/-- Literal head of the deprecated pattern. -/
def deprecatedKw : List Char := "declare_deprecated_lint!".toList

/-- Literal `pub` required by both patterns. -/
def pubKw : List Char := "pub".toList

/-- The fixed group label given to deprecated lints by `parse_contents`. -/
def deprecatedGroup : List Char := "Deprecated".toList

/-- Consume an exact literal; `none` when the input does not start with it. -/
def dropLit : List Char → List Char → Option (List Char)
  | [], l => some l
  | _ :: _, [] => none
  | p :: ps, c :: cs => if c = p then dropLit ps cs else none

/-- Consume the opening delimiter class `[{(]`. -/
def expectOpen : List Char → Option (List Char)
  | [] => none
  | c :: rest => if c = '{' ∨ c = '(' then some rest else none

/-- Consume the closing delimiter class `[})]`. -/
def expectClose : List Char → Option (List Char)
  | [] => none
  | c :: rest => if c = '}' ∨ c = ')' then some rest else none

/-- Consume one exact character. -/
def expectChar (a : Char) : List Char → Option (List Char)
  | [] => none
  | c :: rest => if c = a then some rest else none

/-- Consume `\s+` (one or more whitespace characters, greedy). -/
def expectSpace1 : List Char → Option (List Char)
  | [] => none
  | c :: rest => if isSpaceCh c then some (rest.dropWhile isSpaceCh) else none

/-- Consume `[A-Z_][A-Z_0-9]*` (greedy) and return the captured name. -/
def takeName : List Char → Option (List Char × List Char)
  | [] => none
  | c :: rest =>
    if isNameStart c then some (c :: rest.takeWhile isNameCont, rest.dropWhile isNameCont)
    else none

/-- Consume `[a-z_]+` (greedy) and return the captured category. -/
def takeCat : List Char → Option (List Char × List Char)
  | [] => none
  | c :: rest =>
    if isCatChar c then some (c :: rest.takeWhile isCatChar, rest.dropWhile isCatChar)
    else none

/-- Consume the description body `(?:[^"\\]+|\\(?s).(?-s))*` followed by the
closing quote; returns the captured body (escape pairs kept verbatim) and the
input after the closing quote.  A backslash consumes the next character,
whatever it is (including a newline); the body therefore ends at the first
unescaped quote, and a dangling backslash or a missing closing quote fails. -/
def scanDesc : List Char → Option (List Char × List Char)
  | [] => none
  | c :: rest =>
    if c = '"' then some ([], rest)
    else if c = '\\' then
      match rest with
      | [] => none
      | c2 :: rest2 =>
        match scanDesc rest2 with
        | none => none
        | some (d, r) => some ('\\' :: c2 :: d, r)
    else
      match scanDesc rest with
      | none => none
      | some (d, r) => some (c :: d, r)

/-- Attempt to match `DEC_CLIPPY_LINT_RE` anchored at the start of `l`;
returns the three captures `(name, cat, desc)` and the input after the match. -/
def matchClippyAt (l : List Char) : Option ((List Char × List Char × List Char) × List Char) := do
  let r ← dropLit clippyKw l
  let r ← expectOpen (r.dropWhile isSpaceCh)
  let r ← dropLit pubKw (r.dropWhile isSpaceCh)
  let r ← expectSpace1 r
  let (name, r) ← takeName r
  let r ← expectChar ',' (r.dropWhile isSpaceCh)
  let (cat, r) ← takeCat (r.dropWhile isSpaceCh)
  let r ← expectChar ',' (r.dropWhile isSpaceCh)
  let r ← expectChar '"' (r.dropWhile isSpaceCh)
  let (desc, r) ← scanDesc r
  let r ← expectClose (r.dropWhile isSpaceCh)
  pure ((name, cat, desc), r)

/-- Attempt to match `DEC_DEPRECATED_LINT_RE` anchored at the start of `l`;
returns the captures `(name, desc)` and the input after the match. -/
def matchDeprecatedAt (l : List Char) : Option ((List Char × List Char) × List Char) := do
  let r ← dropLit deprecatedKw l
  let r ← expectOpen (r.dropWhile isSpaceCh)
  let r ← dropLit pubKw (r.dropWhile isSpaceCh)
  let r ← expectSpace1 r
  let (name, r) ← takeName r
  let r ← expectChar ',' (r.dropWhile isSpaceCh)
  let r ← expectChar '"' (r.dropWhile isSpaceCh)
  let (desc, r) ← scanDesc r
  let r ← expectClose (r.dropWhile isSpaceCh)
  pure ((name, desc), r)

/-- Leftmost match of the active pattern: try every start position from the
left. -/
def findClippy : List Char → Option ((List Char × List Char × List Char) × List Char)
  | [] => none
  | c :: rest =>
    match matchClippyAt (c :: rest) with
    | some r => some r
    | none => findClippy rest

/-- Leftmost match of the deprecated pattern. -/
def findDeprecated : List Char → Option ((List Char × List Char) × List Char)
  | [] => none
  | c :: rest =>
    match matchDeprecatedAt (c :: rest) with
    | some r => some r
    | none => findDeprecated rest

/-- Iterated leftmost matching (`captures_iter`), fuelled.  Every successful
match consumes at least the pattern's literal head (see
`findClippy_shrinks`), so fuel `l.length + 1` is never exhausted and the
fuelled recursion computes the exact fixpoint. -/
def clippyCapturesAux : Nat → List Char → List (List Char × List Char × List Char)
  | 0, _ => []
  | fuel + 1, l =>
    match findClippy l with
    | none => []
    | some (caps, rest) => caps :: clippyCapturesAux fuel rest

/-- All captures of `DEC_CLIPPY_LINT_RE.captures_iter(content)` in order. -/
def clippyCaptures (l : List Char) : List (List Char × List Char × List Char) :=
  clippyCapturesAux (l.length + 1) l

/-- Iterated leftmost matching for the deprecated pattern, fuelled. -/
def deprecatedCapturesAux : Nat → List Char → List (List Char × List Char)
  | 0, _ => []
  | fuel + 1, l =>
    match findDeprecated l with
    | none => []
    | some (caps, rest) => caps :: deprecatedCapturesAux fuel rest

/-- All captures of `DEC_DEPRECATED_LINT_RE.captures_iter(content)` in order. -/
def deprecatedCaptures (l : List Char) : List (List Char × List Char) :=
  deprecatedCapturesAux (l.length + 1) l

/-- Models `parse_contents` (lines 83-92): records of active declarations in
textual order, then records of deprecated declarations in textual order. -/
def parse_contents (content : List Char) (filename : List Char) : List Lint :=
  ((clippyCaptures content).map fun caps =>
      Lint.new caps.1 caps.2.1 caps.2.2 none filename)
    ++ ((deprecatedCaptures content).map fun caps =>
      Lint.new caps.1 deprecatedGroup caps.2 (some caps.2) filename)

/-! ## Fuel adequacy: every match consumes at least one character -/

theorem dropLit_length : ∀ (p l r : List Char), dropLit p l = some r →
    r.length + p.length = l.length
  | [], l, r, h => by
    simp only [dropLit, Option.some.injEq] at h
    simp [h]
  | _ :: _, [], r, h => by simp [dropLit] at h
  | p :: ps, c :: cs, r, h => by
    rw [dropLit] at h
    by_cases hc : c = p
    · rw [if_pos hc] at h
      have := dropLit_length ps cs r h
      simp only [List.length_cons]
      omega
    · rw [if_neg hc] at h
      exact absurd h (by simp)

theorem expectOpen_length : ∀ (l r : List Char), expectOpen l = some r → r.length < l.length
  | [], r, h => by simp [expectOpen] at h
  | c :: t, r, h => by
    rw [expectOpen] at h
    by_cases hc : c = '{' ∨ c = '('
    · rw [if_pos hc] at h
      cases h
      simp
    · rw [if_neg hc] at h
      exact absurd h (by simp)

theorem expectClose_length : ∀ (l r : List Char), expectClose l = some r → r.length < l.length
  | [], r, h => by simp [expectClose] at h
  | c :: t, r, h => by
    rw [expectClose] at h
    by_cases hc : c = '}' ∨ c = ')'
    · rw [if_pos hc] at h
      cases h
      simp
    · rw [if_neg hc] at h
      exact absurd h (by simp)

theorem expectChar_length : ∀ (a : Char) (l r : List Char), expectChar a l = some r →
    r.length < l.length
  | _, [], r, h => by simp [expectChar] at h
  | a, c :: t, r, h => by
    rw [expectChar] at h
    by_cases hc : c = a
    · rw [if_pos hc] at h
      cases h
      simp
    · rw [if_neg hc] at h
      exact absurd h (by simp)

theorem expectSpace1_length : ∀ (l r : List Char), expectSpace1 l = some r → r.length < l.length
  | [], r, h => by simp [expectSpace1] at h
  | c :: t, r, h => by
    rw [expectSpace1] at h
    by_cases hc : isSpaceCh c = true
    · rw [if_pos hc] at h
      cases h
      have := (List.dropWhile_suffix (l := t) isSpaceCh).length_le
      simp only [List.length_cons]
      omega
    · rw [if_neg hc] at h
      exact absurd h (by simp)

theorem takeName_length : ∀ (l : List Char) (n r : List Char),
    takeName l = some (n, r) → r.length < l.length
  | [], n, r, h => by simp [takeName] at h
  | c :: t, n, r, h => by
    rw [takeName] at h
    by_cases hc : isNameStart c = true
    · rw [if_pos hc] at h
      cases h
      have := (List.dropWhile_suffix (l := t) isNameCont).length_le
      simp only [List.length_cons]
      omega
    · rw [if_neg hc] at h
      exact absurd h (by simp)

theorem takeCat_length : ∀ (l : List Char) (n r : List Char),
    takeCat l = some (n, r) → r.length < l.length
  | [], n, r, h => by simp [takeCat] at h
  | c :: t, n, r, h => by
    rw [takeCat] at h
    by_cases hc : isCatChar c = true
    · rw [if_pos hc] at h
      cases h
      have := (List.dropWhile_suffix (l := t) isCatChar).length_le
      simp only [List.length_cons]
      omega
    · rw [if_neg hc] at h
      exact absurd h (by simp)

theorem scanDesc_length : ∀ (l d r : List Char), scanDesc l = some (d, r) → r.length < l.length
  | [], d, r, h => by simp [scanDesc] at h
  | c :: t, d, r, h => by
    rw [scanDesc.eq_def] at h
    dsimp only at h
    by_cases hq : c = '"'
    · rw [if_pos hq] at h
      simp only [Option.some.injEq, Prod.mk.injEq] at h
      rw [← h.2]
      simp
    · rw [if_neg hq] at h
      by_cases hb : c = '\\'
      · rw [if_pos hb] at h
        cases t with
        | nil => simp at h
        | cons c2 t2 =>
          dsimp only at h
          cases hs : scanDesc t2 with
          | none => rw [hs] at h; simp at h
          | some pr =>
            obtain ⟨d', r'⟩ := pr
            rw [hs] at h
            simp only [Option.some.injEq, Prod.mk.injEq] at h
            have := scanDesc_length t2 d' r' hs
            rw [← h.2]
            simp only [List.length_cons]
            omega
      · rw [if_neg hb] at h
        cases hs : scanDesc t with
        | none => rw [hs] at h; simp at h
        | some pr =>
          obtain ⟨d', r'⟩ := pr
          rw [hs] at h
          simp only [Option.some.injEq, Prod.mk.injEq] at h
          have := scanDesc_length t d' r' hs
          rw [← h.2]
          simp only [List.length_cons]
          omega

theorem matchDeprecatedAt_shrinks (l : List Char)
    (caps : List Char × List Char) (rest : List Char)
    (h : matchDeprecatedAt l = some (caps, rest)) : rest.length < l.length := by
  rw [matchDeprecatedAt] at h
  simp only [Option.bind_eq_bind, Option.bind_eq_some, Option.pure_def, Option.some.injEq] at h
  obtain ⟨r1, h1, r2, h2, r3, h3, r4, h4, h⟩ := h
  obtain ⟨⟨name, r5⟩, h5, h⟩ := h
  simp only [Option.bind_eq_some, Option.some.injEq] at h
  obtain ⟨r6, h6, r7, h7, h⟩ := h
  obtain ⟨⟨desc, r8⟩, h8, h⟩ := h
  simp only [Option.bind_eq_some, Option.some.injEq] at h
  obtain ⟨r9, h9, hfin⟩ := h
  have e1 := dropLit_length _ _ _ h1
  have e2 := expectOpen_length _ _ h2
  have e2' := (List.dropWhile_suffix (l := r1) isSpaceCh).length_le
  have e3 := dropLit_length _ _ _ h3
  have e3' := (List.dropWhile_suffix (l := r2) isSpaceCh).length_le
  have e4 := expectSpace1_length _ _ h4
  have e5 := takeName_length _ _ _ h5
  have e6 := expectChar_length _ _ _ h6
  have e6' := (List.dropWhile_suffix (l := r5) isSpaceCh).length_le
  have e7 := expectChar_length _ _ _ h7
  have e7' := (List.dropWhile_suffix (l := r6) isSpaceCh).length_le
  have e8 := scanDesc_length _ _ _ h8
  have e9 := expectClose_length _ _ h9
  have e9' := (List.dropWhile_suffix (l := r8) isSpaceCh).length_le
  have hrest : r9 = rest := congrArg Prod.snd hfin
  rw [← hrest]
  simp only [deprecatedKw, pubKw, List.length_cons] at e1 e3
  omega

theorem matchClippyAt_shrinks (l : List Char)
    (caps : List Char × List Char × List Char) (rest : List Char)
    (h : matchClippyAt l = some (caps, rest)) : rest.length < l.length := by
  rw [matchClippyAt] at h
  simp only [Option.bind_eq_bind, Option.bind_eq_some, Option.pure_def, Option.some.injEq] at h
  obtain ⟨r1, h1, r2, h2, r3, h3, r4, h4, h⟩ := h
  obtain ⟨⟨name, r5⟩, h5, h⟩ := h
  simp only [Option.bind_eq_some, Option.some.injEq] at h
  obtain ⟨r6, h6, h⟩ := h
  obtain ⟨⟨cat, r7⟩, h7, h⟩ := h
  simp only [Option.bind_eq_some, Option.some.injEq] at h
  obtain ⟨r8, h8, r9, h9, h⟩ := h
  obtain ⟨⟨desc, r10⟩, h10, h⟩ := h
  simp only [Option.bind_eq_some, Option.some.injEq] at h
  obtain ⟨r11, h11, hfin⟩ := h
  have e1 := dropLit_length _ _ _ h1
  have e2 := expectOpen_length _ _ h2
  have e2' := (List.dropWhile_suffix (l := r1) isSpaceCh).length_le
  have e3 := dropLit_length _ _ _ h3
  have e3' := (List.dropWhile_suffix (l := r2) isSpaceCh).length_le
  have e4 := expectSpace1_length _ _ h4
  have e5 := takeName_length _ _ _ h5
  have e6 := expectChar_length _ _ _ h6
  have e6' := (List.dropWhile_suffix (l := r5) isSpaceCh).length_le
  have e7 := takeCat_length _ _ _ h7
  have e7' := (List.dropWhile_suffix (l := r6) isSpaceCh).length_le
  have e8 := expectChar_length _ _ _ h8
  have e8' := (List.dropWhile_suffix (l := r7) isSpaceCh).length_le
  have e9 := expectChar_length _ _ _ h9
  have e9' := (List.dropWhile_suffix (l := r8) isSpaceCh).length_le
  have e10 := scanDesc_length _ _ _ h10
  have e11 := expectClose_length _ _ h11
  have e11' := (List.dropWhile_suffix (l := r10) isSpaceCh).length_le
  have hrest : r11 = rest := congrArg Prod.snd hfin
  rw [← hrest]
  simp only [clippyKw, pubKw, List.length_cons] at e1 e3
  omega

theorem findClippy_shrinks : ∀ (l : List Char) (caps : List Char × List Char × List Char)
    (rest : List Char), findClippy l = some (caps, rest) → rest.length < l.length
  | [], _, _, h => by simp [findClippy] at h
  | c :: t, caps, rest, h => by
    rw [findClippy] at h
    cases hm : matchClippyAt (c :: t) with
    | some pr =>
      rw [hm] at h
      cases h
      exact matchClippyAt_shrinks (c :: t) caps rest hm
    | none =>
      rw [hm] at h
      have := findClippy_shrinks t caps rest h
      simp only [List.length_cons]
      omega

theorem findDeprecated_shrinks : ∀ (l : List Char) (caps : List Char × List Char)
    (rest : List Char), findDeprecated l = some (caps, rest) → rest.length < l.length
  | [], _, _, h => by simp [findDeprecated] at h
  | c :: t, caps, rest, h => by
    rw [findDeprecated] at h
    cases hm : matchDeprecatedAt (c :: t) with
    | some pr =>
      rw [hm] at h
      cases h
      exact matchDeprecatedAt_shrinks (c :: t) caps rest hm
    | none =>
      rw [hm] at h
      have := findDeprecated_shrinks t caps rest h
      simp only [List.length_cons]
      omega

/-- The fuel `l.length + 1` used by `clippyCaptures` is adequate: any two
sufficient fuels compute the same capture list, so the fuelled recursion is
the exact fixpoint of `captures_iter`. -/
theorem clippyCapturesAux_adequate : ∀ (f1 : Nat) (f2 : Nat) (l : List Char),
    l.length < f1 → l.length < f2 → clippyCapturesAux f1 l = clippyCapturesAux f2 l
  | 0, _, l, h1, _ => absurd h1 (by omega)
  | _ + 1, 0, l, _, h2 => absurd h2 (by omega)
  | f1 + 1, f2 + 1, l, h1, h2 => by
    rw [clippyCapturesAux, clippyCapturesAux]
    cases hm : findClippy l with
    | none => rfl
    | some pr =>
      obtain ⟨caps, rest⟩ := pr
      have := findClippy_shrinks l caps rest hm
      dsimp only
      rw [clippyCapturesAux_adequate f1 f2 rest (by omega) (by omega)]

/-- Fuel adequacy for the deprecated pattern. -/
theorem deprecatedCapturesAux_adequate : ∀ (f1 : Nat) (f2 : Nat) (l : List Char),
    l.length < f1 → l.length < f2 → deprecatedCapturesAux f1 l = deprecatedCapturesAux f2 l
  | 0, _, l, h1, _ => absurd h1 (by omega)
  | _ + 1, 0, l, _, h2 => absurd h2 (by omega)
  | f1 + 1, f2 + 1, l, h1, h2 => by
    rw [deprecatedCapturesAux, deprecatedCapturesAux]
    cases hm : findDeprecated l with
    | none => rfl
    | some pr =>
      obtain ⟨caps, rest⟩ := pr
      have := findDeprecated_shrinks l caps rest hm
      dsimp only
      rw [deprecatedCapturesAux_adequate f1 f2 rest (by omega) (by omega)]

/-! ## Concrete extraction fixtures -/

/-- Module name used by the extraction fixtures (as in the repository's own
tests). -/
def moduleDemo : List Char := "module_name".toList

/-- Raw captured description of the PTR_ARG fixture (contains one line
continuation). -/
def rawPtrDesc : List Char := "really long \\\n     text".toList

/-- Name capture of the DOC_MARKDOWN fixture. -/
def docMarkdownU : List Char := "DOC_MARKDOWN".toList

/-- Category of the DOC_MARKDOWN fixture. -/
def pedanticG : List Char := "pedantic".toList

/-- Description of the DOC_MARKDOWN fixture. -/
def singleLineD : List Char := "single line".toList

/-- Name capture of the deprecated fixture. -/
def saeU : List Char := "SHOULD_ASSERT_EQ".toList

/-- Description of the deprecated fixture. -/
def saeDesc : List Char := "`assert!()` will be more flexible with RFC 2011".toList

/-- A file text with an active declaration, then a deprecated declaration,
then another active declaration (deprecated in the middle). -/
def interleavedDemo : List Char :=
  ("declare_clippy_lint! \x7b\n    pub PTR_ARG,\n    style,\n    \"really long \\\n     text\"\n\x7d\n\n/// some doc comment\ndeclare_deprecated_lint! \x7b\n    pub SHOULD_ASSERT_EQ,\n    \"`assert!()` will be more flexible with RFC 2011\"\n\x7d\n\ndeclare_clippy_lint!(\n    pub DOC_MARKDOWN,\n    pedantic,\n    \"single line\"\n)\n").toList

/-- The three records extracted from `interleavedDemo`: both active records
first, the deprecated record last despite appearing second in the text. -/
def interleavedExpected : List Lint :=
  Lint.new ptrArgU styleG rawPtrDesc none moduleDemo ::
    Lint.new docMarkdownU pedanticG singleLineD none moduleDemo ::
      Lint.new saeU deprecatedGroup saeDesc (some saeDesc) moduleDemo :: []

/-! ## Claim C5: active records first, then deprecated records -/

/-- C5: the output of `parse_contents` is its own `deprecation.isNone`
subsequence followed by its `deprecation.isSome` subsequence (all active
records precede all deprecated records), and on a text interleaving
active/deprecated/active declarations the deprecated record comes last while
the active records keep their textual order. -/
theorem parse_contents_actives_first (content filename : List Char) :
    parse_contents content filename =
      (parse_contents content filename).filter (fun l => l.deprecation.isNone)
        ++ (parse_contents content filename).filter (fun l => l.deprecation.isSome) ∧
    parse_contents interleavedDemo moduleDemo = interleavedExpected := by
  constructor
  · rw [parse_contents, List.filter_append, List.filter_append]
    have hA1 : ((clippyCaptures content).map fun caps =>
        Lint.new caps.1 caps.2.1 caps.2.2 none filename).filter
          (fun l => l.deprecation.isNone) =
        (clippyCaptures content).map fun caps =>
          Lint.new caps.1 caps.2.1 caps.2.2 none filename :=
      List.filter_eq_self.mpr (fun a ha => by
        obtain ⟨caps, _, rfl⟩ := List.mem_map.mp ha
        rfl)
    have hA2 : ((clippyCaptures content).map fun caps =>
        Lint.new caps.1 caps.2.1 caps.2.2 none filename).filter
          (fun l => l.deprecation.isSome) = [] :=
      List.filter_eq_nil_iff.mpr (fun a ha => by
        obtain ⟨caps, _, rfl⟩ := List.mem_map.mp ha
        simp [Lint.new])
    have hD1 : ((deprecatedCaptures content).map fun caps =>
        Lint.new caps.1 deprecatedGroup caps.2 (some caps.2) filename).filter
          (fun l => l.deprecation.isNone) = [] :=
      List.filter_eq_nil_iff.mpr (fun a ha => by
        obtain ⟨caps, _, rfl⟩ := List.mem_map.mp ha
        simp [Lint.new])
    have hD2 : ((deprecatedCaptures content).map fun caps =>
        Lint.new caps.1 deprecatedGroup caps.2 (some caps.2) filename).filter
          (fun l => l.deprecation.isSome) =
        (deprecatedCaptures content).map fun caps =>
          Lint.new caps.1 deprecatedGroup caps.2 (some caps.2) filename :=
      List.filter_eq_self.mpr (fun a ha => by
        obtain ⟨caps, _, rfl⟩ := List.mem_map.mp ha
        rfl)
    rw [hA1, hA2, hD1, hD2, List.append_nil, List.nil_append]
  · decide

/-! ## Claim C9: delimiters are chosen independently -/

/-- Name of the first mismatched-delimiter fixture. -/
def mixedOneU : List Char := "MIXED_ONE".toList

/-- Name of the second mismatched-delimiter fixture. -/
def mixedTwoU : List Char := "MIXED_TWO".toList

/-- A text whose active declaration opens with a brace but closes with a
parenthesis, and whose deprecated declaration opens with a parenthesis but
closes with a brace. -/
def mismatchDemo : List Char :=
  ("declare_clippy_lint! \x7b pub MIXED_ONE, style, \"d\" )\ndeclare_deprecated_lint! ( pub MIXED_TWO, \"r\" \x7d\n").toList

/-- C9: the patterns accept mismatched delimiter pairs; a declaration opened
with a brace and closed with a parenthesis (and vice versa) still matches and
yields its record. -/
theorem mismatched_delimiters_match :
    parse_contents mismatchDemo moduleDemo =
      Lint.new mixedOneU styleG ('d' :: []) none moduleDemo ::
        Lint.new mixedTwoU deprecatedGroup ('r' :: []) (some ('r' :: [])) moduleDemo :: [] := by
  decide

/-! ## Claim C2: deprecated records -/

/-- Name of the escaped-quote deprecated fixture. -/
def fooU : List Char := "FOO".toList

/-- The raw capture of the escaped-quote fixture: it contains two
backslash-quote escape sequences. -/
def rawEsc : List Char := "say \\\"hi\\\"".toList

/-- A deprecated declaration whose quoted string contains escaped quotes. -/
def depEscDemo : List Char :=
  ("declare_deprecated_lint!(pub FOO, \"say \\\"hi\\\"\")").toList

/-- The record extracted from `depEscDemo`: description normalized, but
deprecation reason kept raw. -/
def depRec : Lint := Lint.new fooU deprecatedGroup rawEsc (some rawEsc) moduleDemo

/-- C2 counterexample: the deprecated record built by `parse_contents` stores
the raw capture as `deprecation` (line 89 passes `&m["desc"]` unnormalized)
while `desc` is normalized by `Lint::new`; with an escaped quote in the
capture the two fields differ, refuting `deprecation_reason = description`. -/
theorem deprecated_reason_not_normalized :
    parse_contents depEscDemo moduleDemo = depRec :: [] ∧
    depRec.group = deprecatedGroup ∧
    depRec.deprecation ≠ some depRec.desc := by
  refine ⟨by decide, rfl, by decide⟩

/-- C2 (amended): every record carrying a `deprecation` has group
`"Deprecated"` and its `desc` equals the normalization of the raw reason
text; the two fields coincide only when normalization leaves the raw capture
unchanged (no escaped quote, no line continuation). -/
theorem deprecated_record_spec (content filename : List Char) (l : Lint) (d : List Char)
    (hmem : l ∈ parse_contents content filename)
    (hdep : l.deprecation = some d) :
    l.group = deprecatedGroup ∧ l.desc = normalizeDesc d := by
  rw [parse_contents, List.mem_append] at hmem
  rcases hmem with h | h
  · obtain ⟨caps, _, rfl⟩ := List.mem_map.mp h
    exact absurd hdep (by simp [Lint.new])
  · obtain ⟨caps, _, rfl⟩ := List.mem_map.mp h
    have hd : caps.2 = d := by simpa [Lint.new] using hdep
    subst hd
    exact ⟨rfl, rfl⟩

/-- Witness for `deprecated_record_spec` at the concrete escaped-quote
fixture. -/
theorem deprecated_record_spec_witness :
    (depRec ∈ parse_contents depEscDemo moduleDemo ∧ depRec.deprecation = some rawEsc) ∧
      depRec.group = deprecatedGroup ∧ depRec.desc = normalizeDesc rawEsc :=
  ⟨⟨by decide, rfl⟩, deprecated_record_spec depEscDemo moduleDemo depRec rawEsc (by decide) rfl⟩

/-! ## The file tree scanner (lines 71-102)

`WalkDir` and `fs` are external collaborators; the walker's result sequence
and the file-read operation are passed to the model as explicit inputs. -/

/-- A directory entry produced by the walker. -/
structure DirEntry where
  path : List Char
deriving DecidableEq, Repr

/-- An error the walker reports for one entry. -/
structure WalkError where
  msg : List Char
deriving DecidableEq, Repr

/-- An I/O error from opening or reading a file (including non-UTF8
content rejected by `read_to_string`). -/
structure IoError where
  msg : List Char
deriving DecidableEq, Repr

/-- Last `/`-separated component of a path. -/
def lastComponent (p : List Char) : List Char :=
  (p.splitOn '/').getLastD []

/-- Rust `Path::file_stem` and `Path::extension` of a file name: split before
and after the last dot; no dot, or a dot only at the start, means no
extension. -/
def splitExt (name : List Char) : List Char × Option (List Char) :=
  match name.reverse.span (fun c => c != '.') with
  | (_, []) => (name, none)
  | (revExt, _ :: revStem) =>
    if revStem = [] then (name, none) else (revStem.reverse, some revExt.reverse)

/-- The extension `lint_files` keeps. -/
def rsExt : List Char := "rs".toList

/-- Models `lint_files` (lines 95-102): `filter_map(|f| f.ok())` drops the
walker's error entries, then entries are filtered by extension `rs`. -/
def lint_files (walk : List (Except WalkError DirEntry)) : List DirEntry :=
  (walk.filterMap Except.toOption).filter
    (fun f => decide ((splitExt (lastComponent f.path)).2 = some rsExt))

/-- Models `gather_from_file` (lines 76-81): `File::open` + `read_to_string`
are the read oracle; the two `.unwrap()` calls turn a per-file failure into a
panic, modelled as the `error` outcome; on success the text is parsed with
`file_stem` as the module name. -/
def gather_from_file (readFile : List Char → Except IoError (List Char))
    (e : DirEntry) : Except IoError (List Lint) :=
  match readFile e.path with
  | Except.error err => Except.error err
  | Except.ok content =>
    Except.ok (parse_contents content (splitExt (lastComponent e.path)).1)

/-- Sequential concatenation of per-file results with failure propagation:
consuming the `flat_map` iterator of `gather_all` yields each file's records
in traversal order and panics at the first unreadable file. -/
def gatherList (readFile : List Char → Except IoError (List Char)) :
    List DirEntry → Except IoError (List Lint)
  | [] => Except.ok []
  | e :: es =>
    match gather_from_file readFile e with
    | Except.error err => Except.error err
    | Except.ok ls =>
      match gatherList readFile es with
      | Except.error err => Except.error err
      | Except.ok rest => Except.ok (ls ++ rest)

/-- Models `gather_all` (lines 71-74). -/
def gather_all (walk : List (Except WalkError DirEntry))
    (readFile : List Char → Except IoError (List Char)) : Except IoError (List Lint) :=
  gatherList readFile (lint_files walk)

/-- The text a successful read returned (defaulting to empty outside the
success cases, which the hypotheses exclude). -/
def readD (readFile : List Char → Except IoError (List Char)) (p : List Char) : List Char :=
  match readFile p with
  | Except.ok c => c
  | Except.error _ => []

theorem gatherList_ok (readFile : List Char → Except IoError (List Char)) :
    ∀ es : List DirEntry, (∀ e ∈ es, (readFile e.path).isOk = true) →
      gatherList readFile es = Except.ok (es.flatMap fun e =>
        parse_contents (readD readFile e.path) (splitExt (lastComponent e.path)).1)
  | [], _ => rfl
  | e :: es, h => by
    have he := h e (List.mem_cons_self _ _)
    cases hr : readFile e.path with
    | error err => rw [hr] at he; simp [Except.isOk, Except.toBool] at he
    | ok c =>
      rw [gatherList.eq_def]
      dsimp only
      rw [gather_from_file, hr,
        gatherList_ok readFile es (fun x hx => h x (List.mem_cons_of_mem _ hx))]
      dsimp only
      rw [List.flatMap_cons]
      have : readD readFile e.path = c := by rw [readD, hr]
      rw [this]

theorem gatherList_err (readFile : List Char → Except IoError (List Char)) :
    ∀ (es : List DirEntry) (e : DirEntry), e ∈ es → (readFile e.path).isOk = false →
      ∃ er, gatherList readFile es = Except.error er
  | [], e, hmem, _ => absurd hmem (List.not_mem_nil e)
  | e1 :: es, e, hmem, hbad => by
    cases hr1 : gather_from_file readFile e1 with
    | error err =>
      refine ⟨err, ?_⟩
      rw [gatherList.eq_def]
      dsimp only
      rw [hr1]
    | ok ls =>
      rcases List.mem_cons.mp hmem with rfl | hmem2
      · exfalso
        cases hr : readFile e.path with
        | ok c => rw [hr] at hbad; simp [Except.isOk, Except.toBool] at hbad
        | error err =>
          rw [gather_from_file, hr] at hr1
          exact Except.noConfusion hr1
      · obtain ⟨er, her⟩ := gatherList_err readFile es e hmem2 hbad
        refine ⟨er, ?_⟩
        rw [gatherList.eq_def]
        dsimp only
        rw [hr1, her]

/-! ## Claim C1: error handling of the tree scan -/

/-- Path of the entry whose read fails. -/
def vanishedPath : List Char := "lib.rs".toList

/-- The entry whose read fails. -/
def vanishedEntry : DirEntry := ⟨vanishedPath⟩

/-- Message of the failing read. -/
def readErrMsg : List Char := "No such file or directory".toList

/-- The read failure. -/
def readErr : IoError := ⟨readErrMsg⟩

/-- A walk listing one `.rs` file. -/
def failWalk : List (Except WalkError DirEntry) := Except.ok vanishedEntry :: []

/-- A read oracle under which that file cannot be read (vanished or
permission denied or non-UTF8). -/
def failRead : List Char → Except IoError (List Char) := fun _ => Except.error readErr

/-- C1 counterexample: with one enumerated `.rs` file whose read fails,
`gather_from_file`'s `.unwrap()` aborts the scan: the error propagates and
the result is not the concatenation over readable files (which would be
`ok []`). -/
theorem gather_all_error_propagates :
    gather_all failWalk failRead = Except.error readErr ∧
      gather_all failWalk failRead ≠ Except.ok [] := by
  constructor
  · rfl
  · intro hcontra
    rw [show gather_all failWalk failRead = Except.error readErr from rfl] at hcontra
    exact Except.noConfusion hcontra

/-- C1 (amended): an error reported by the walker for an entry is recovered
by skipping that entry, and when every selected file reads successfully the
scan returns the concatenation of the per-file records in traversal order;
but a failure to open or read a selected file (vanished file, permission
denied, non-UTF8 content) aborts the whole scan with a panic instead of
skipping the file. -/
theorem gather_all_amended (walk : List (Except WalkError DirEntry))
    (readFile : List Char → Except IoError (List Char)) :
    (∀ (err : WalkError) (tail : List (Except WalkError DirEntry)),
      lint_files (Except.error err :: tail) = lint_files tail) ∧
    ((∀ e ∈ lint_files walk, (readFile e.path).isOk = true) →
      gather_all walk readFile = Except.ok ((lint_files walk).flatMap fun e =>
        parse_contents (readD readFile e.path) (splitExt (lastComponent e.path)).1)) ∧
    (∀ e ∈ lint_files walk, (readFile e.path).isOk = false →
      ∃ er, gather_all walk readFile = Except.error er) := by
  refine ⟨fun err tail => rfl, ?_, ?_⟩
  · intro h
    exact gatherList_ok readFile _ h
  · intro e hmem hbad
    exact gatherList_err readFile _ e hmem hbad

/-- Entry of a readable `.rs` file. -/
def goodEntry : DirEntry := ⟨"ptr_arg.rs".toList⟩

/-- Entry filtered out by extension. -/
def otherEntry : DirEntry := ⟨"readme.md".toList⟩

/-- A walker error entry. -/
def wErr : WalkError := ⟨"filesystem loop".toList⟩

/-- A walk with an error entry, a readable `.rs` file and a non-`.rs` file. -/
def goodWalk : List (Except WalkError DirEntry) :=
  Except.error wErr :: Except.ok goodEntry :: Except.ok otherEntry :: []

/-- A read oracle under which every file reads successfully. -/
def goodRead : List Char → Except IoError (List Char) := fun _ => Except.ok depEscDemo

/-- Witness for `gather_all_amended` at a concrete tree. -/
theorem gather_all_amended_witness :
    lint_files (Except.error wErr :: goodWalk) = lint_files goodWalk ∧
      gather_all goodWalk goodRead = Except.ok ((lint_files goodWalk).flatMap fun e =>
        parse_contents (readD goodRead e.path) (splitExt (lastComponent e.path)).1) :=
  ⟨(gather_all_amended goodWalk goodRead).1 wErr goodWalk,
    (gather_all_amended goodWalk goodRead).2.1 (by decide)⟩

end Clippy
